import Mathlib

/-!
Verification of the hosting repository's two pieces of decision logic:

* the viewer-request edge function (src/unnamed/part_001), whose `handler`
  rewrites `request.uri`; its pure core is embedded here as `normalize`;
* the domain-set composer `withWwwDomains` of the hosting stack
  (src/unnamed/part_000), together with the older stack's inline
  subject-alternative-names construction (src/lib/hosting-stack.ts).

JavaScript strings are modelled as Lean `String`s; the JS string methods
`endsWith`, `startsWith` and `includes` are embedded as Boolean functions on
the underlying character lists.
-/

namespace Hosting

/-- Embedding of JS `s.endsWith(t)`: `t` is a suffix of `s`. -/
def jsEndsWith (s t : String) : Bool :=
  t.data.isSuffixOf s.data

/-- Embedding of JS `s.startsWith(t)`: `t` is a leading part of `s`. -/
def jsStartsWith (s t : String) : Bool :=
  t.data.isPrefixOf s.data

/-- Substring occurrence check on character lists, used to embed JS
`s.includes(t)`: does `needle` occur contiguously inside the second list? -/
def listInfixCheck (needle : List Char) : List Char → Bool
  | [] => needle.isEmpty
  | c :: rest => needle.isPrefixOf (c :: rest) || listInfixCheck needle rest

/-- Embedding of JS `s.includes(t)`: `t` occurs as a contiguous substring of
`s` (anywhere in the full value). -/
def jsIncludes (s t : String) : Bool :=
  listInfixCheck t.data s.data

/-- Embedding of the `request.uri` rewrite performed by `handler` in
src/unnamed/part_001 (the edge path normalizer): a uri ending in `/` gets
`index.html` appended, a uri with no `.` anywhere gets `/index.html`
appended, and any other uri passes through unchanged. -/
def normalize (uri : String) : String :=
  if jsEndsWith uri "/" then uri ++ "index.html"
  else if !(jsIncludes uri ".") then uri ++ "/index.html"
  else uri

/-- One iteration of the loop body of `withWwwDomains`
(src/unnamed/part_000, lines 131-148): skip domains already starting with
`www.`, skip domains whose `www.` variant is already present, otherwise
append the `www.` variant at the end. -/
def wwwStep (domains : List String) (domain : String) : List String :=
  if jsStartsWith domain "www." then domains
  else if ("www." ++ domain) ∈ domains then domains
  else domains ++ ["www." ++ domain]

/-- The reverse index loop of `withWwwDomains`: `wwwLoop (i+1) domains`
processes index `i` (reading the element in place, as the JS loop reads
`domains[i]` from the live array) and then continues with smaller indices,
exactly like `for (let i = domains.length - 1; i >= 0; i--)` given that the
loop only ever appends past the initially scanned range. -/
def wwwLoop : Nat → List String → List String
  | 0, domains => domains
  | i + 1, domains => wwwLoop i (wwwStep domains (domains.getD i ""))

/-- Embedding of `HostingStack.withWwwDomains` (src/unnamed/part_000,
lines 130-151): seed the working list with the domain name followed by the
alternative domain names (defaulting to empty), run the reverse scan, then
return everything except the first element. -/
def withWwwDomains (domainName : String)
    (alternativeDomainNames : Option (List String)) : List String :=
  let domains := domainName :: alternativeDomainNames.getD []
  (wwwLoop domains.length domains).drop 1

/-- The spec's name `computeAlternateDomains(primaryDomain, explicitAlternates)`
for the domain-set composer; it is `withWwwDomains` applied to an explicitly
supplied alternates list. -/
def computeAlternateDomains (primaryDomain : String)
    (explicitAlternates : List String) : List String :=
  withWwwDomains primaryDomain (some explicitAlternates)

/-- Embedding of the subject-alternative-names list built inline by the older
stack version (src/lib/hosting-stack.ts, lines 36-43): the `www.` variant of
the main domain followed by the alternative domain names unchanged. -/
def subjectAlternativeNamesOld (domainName : String)
    (alternativeDomainNames : Option (List String)) : List String :=
  ("www." ++ domainName) :: alternativeDomainNames.getD []

/-! ### Helper lemmas about the embedded string operations -/

/-- A one-element list is a suffix exactly when it is the last element. -/
theorem singleton_suffix_iff {α : Type} {a : α} {l : List α} :
    [a] <:+ l ↔ l.getLast? = some a := by
  induction l using List.reverseRecOn with
  | nil => simp
  | append_singleton xs b _ =>
    constructor
    · rintro ⟨p, hp⟩
      have h2 := congrArg List.getLast? hp
      simp at h2
      simp [h2]
    · intro h
      have hb : b = a := by simpa using h
      exact ⟨xs, by rw [hb]⟩

/-- `jsEndsWith s "/"` holds exactly when the last character of `s` is `/`. -/
theorem jsEndsWith_slash (s : String) :
    jsEndsWith s "/" = true ↔ s.data.getLast? = some '/' := by
  rw [show jsEndsWith s "/" = (['/'].isSuffixOf s.data) from rfl]
  rw [List.isSuffixOf_iff_suffix]
  exact singleton_suffix_iff

/-- Searching for a single character substring is just membership. -/
theorem listInfixCheck_singleton {a : Char} (l : List Char) :
    listInfixCheck [a] l = true ↔ a ∈ l := by
  induction l with
  | nil => simp [listInfixCheck, List.isEmpty]
  | cons c rest ih =>
    simp only [listInfixCheck, Bool.or_eq_true, ih, List.mem_cons]
    constructor
    · rintro (h | h)
      · left
        simpa [List.isPrefixOf] using h
      · right; exact h
    · rintro (h | h)
      · left
        simp [List.isPrefixOf, h]
      · right; exact h

/-- `jsIncludes s "."` holds exactly when `s` has a `.` character anywhere. -/
theorem jsIncludes_dot (s : String) :
    jsIncludes s "." = true ↔ '.' ∈ s.data := by
  rw [show jsIncludes s "." = listInfixCheck ['.'] s.data from rfl]
  exact listInfixCheck_singleton s.data

/-- Appending a chunk that ends in a character other than `/` yields a string
that does not end with `/` and, when the chunk holds a `.`, one that contains
a `.`; so such a result falls through both rewrite branches of `normalize`. -/
theorem normalize_fixed_of_suffix (q s : String)
    (h1 : s.data.getLast? = some 'l') (h2 : '.' ∈ s.data) :
    normalize (q ++ s) = q ++ s := by
  have hend : jsEndsWith (q ++ s) "/" = false := by
    rw [Bool.eq_false_iff]
    intro hc
    rw [jsEndsWith_slash, String.data_append, List.getLast?_append, h1] at hc
    simp at hc
  have hdot : jsIncludes (q ++ s) "." = true := by
    rw [jsIncludes_dot, String.data_append]
    exact List.mem_append_right _ h2
  simp [normalize, hend, hdot]

/-! ### Claims about the edge path normalizer -/

/-- C5: a request uri ending in the separator `/` is normalized by appending
the literal suffix `index.html`. -/
theorem normalize_dir_slash (p : String) (h : jsEndsWith p "/" = true) :
    normalize p = p ++ "index.html" := by
  simp [normalize, h]

/-- Witness for C5 at the concrete input `/blog/`. -/
theorem normalize_dir_slash_witness :
    jsEndsWith "/blog/" "/" = true ∧ normalize "/blog/" = "/blog/" ++ "index.html" :=
  ⟨by decide, normalize_dir_slash "/blog/" (by decide)⟩

/-- C6: a request uri not ending in `/` and containing no `.` anywhere is
normalized by appending the literal suffix `/index.html`. -/
theorem normalize_extensionless (p : String)
    (h1 : jsEndsWith p "/" = false) (h2 : jsIncludes p "." = false) :
    normalize p = p ++ "/index.html" := by
  simp [normalize, h1, h2]

/-- Witness for C6 at the concrete input `/blog`. -/
theorem normalize_extensionless_witness :
    jsEndsWith "/blog" "/" = false ∧ jsIncludes "/blog" "." = false ∧
      normalize "/blog" = "/blog" ++ "/index.html" :=
  ⟨by decide, by decide, normalize_extensionless "/blog" (by decide) (by decide)⟩

/-- C7: a request uri not ending in `/` that contains at least one `.` passes
through `normalize` unchanged. -/
theorem normalize_file_unchanged (p : String)
    (h1 : jsEndsWith p "/" = false) (h2 : jsIncludes p "." = true) :
    normalize p = p := by
  simp [normalize, h1, h2]

/-- Witness for C7 at the concrete input `/styles.css`. -/
theorem normalize_file_unchanged_witness :
    jsEndsWith "/styles.css" "/" = false ∧ jsIncludes "/styles.css" "." = true ∧
      normalize "/styles.css" = "/styles.css" :=
  ⟨by decide, by decide, normalize_file_unchanged "/styles.css" (by decide) (by decide)⟩

/-- C8: `normalize` is total: for every string exactly one of the three
branches applies (the three guards listed are pairwise contradictory Boolean
conditions) and the function returns the corresponding string. -/
theorem normalize_total (p : String) :
    (jsEndsWith p "/" = true ∧ normalize p = p ++ "index.html")
    ∨ (jsEndsWith p "/" = false ∧ jsIncludes p "." = false ∧
        normalize p = p ++ "/index.html")
    ∨ (jsEndsWith p "/" = false ∧ jsIncludes p "." = true ∧
        normalize p = p) := by
  cases hend : jsEndsWith p "/" with
  | true => exact Or.inl ⟨rfl, by simp [normalize, hend]⟩
  | false =>
    cases hdot : jsIncludes p "." with
    | false => exact Or.inr (Or.inl ⟨rfl, rfl, by simp [normalize, hend, hdot]⟩)
    | true => exact Or.inr (Or.inr ⟨rfl, rfl, by simp [normalize, hend, hdot]⟩)

/-- C9: `normalize` is idempotent: every rewritten result ends in
`index.html`, which contains a `.` and does not end in `/`, so a second
application changes nothing. -/
theorem normalize_idempotent (p : String) :
    normalize (normalize p) = normalize p := by
  cases hend : jsEndsWith p "/" with
  | true =>
    have hp : normalize p = p ++ "index.html" := by simp [normalize, hend]
    rw [hp]
    exact normalize_fixed_of_suffix p "index.html" (by decide) (by decide)
  | false =>
    cases hdot : jsIncludes p "." with
    | false =>
      have hp : normalize p = p ++ "/index.html" := by simp [normalize, hend, hdot]
      rw [hp]
      exact normalize_fixed_of_suffix p "/index.html" (by decide) (by decide)
    | true =>
      have hp : normalize p = p := by simp [normalize, hend, hdot]
      rw [hp, hp]

/-! ### Helper lemmas about the domain-set composer -/

/-- Prefixing a domain with `www.` always changes it (it gets longer). -/
theorem www_ne (d : String) : "www." ++ d ≠ d := by
  intro h
  have h2 : ("www." ++ d).data.length = d.data.length := by rw [h]
  rw [String.data_append, List.length_append] at h2
  have h3 : ("www." : String).data.length = 4 := rfl
  rw [h3] at h2
  omega

/-- One loop iteration either leaves the working list unchanged or appends a
single entry that was not yet present. -/
theorem wwwStep_eq_or_append (domains : List String) (x : String) :
    wwwStep domains x = domains ∨
      ∃ w, wwwStep domains x = domains ++ [w] ∧ w ∉ domains := by
  unfold wwwStep
  split
  · exact Or.inl rfl
  · split
    · exact Or.inl rfl
    · exact Or.inr ⟨"www." ++ x, rfl, by assumption⟩

/-- The reverse scan only appends entries, each of which was absent from the
working list when it was appended; in particular every appended entry is
absent from the initial working list, and the appended entries are pairwise
distinct. -/
theorem wwwLoop_decomp (n : Nat) :
    ∀ domains : List String, ∃ extra,
      wwwLoop n domains = domains ++ extra ∧
        (∀ y ∈ extra, y ∉ domains) ∧ extra.Nodup := by
  induction n with
  | zero => exact fun domains => ⟨[], by simp [wwwLoop]⟩
  | succ i ih =>
    intro domains
    rcases wwwStep_eq_or_append domains (domains.getD i "") with h | ⟨w, h, hw⟩
    · rcases ih domains with ⟨extra, he, hd, hn⟩
      exact ⟨extra, by rw [wwwLoop, h]; exact he, hd, hn⟩
    · rcases ih (domains ++ [w]) with ⟨extra, he, hd, hn⟩
      refine ⟨w :: extra, ?_, ?_, ?_⟩
      · rw [wwwLoop, h, he, List.append_assoc]
        rfl
      · intro y hy
        rcases List.mem_cons.mp hy with rfl | hy
        · exact hw
        · intro hc
          exact hd y hy (List.mem_append_left _ hc)
      · refine List.nodup_cons.mpr ⟨?_, hn⟩
        intro hc
        exact hd w hc (List.mem_append_right _ (List.mem_singleton_self w))

/-- The composer's output is the explicit alternates followed by a block of
derived entries, each absent from the original working list `d :: A` and
pairwise distinct. -/
theorem computeAlternateDomains_decomp (d : String) (A : List String) :
    ∃ extra, computeAlternateDomains d A = A ++ extra ∧
      (∀ y ∈ extra, y ∉ d :: A) ∧ extra.Nodup := by
  rcases wwwLoop_decomp (d :: A).length (d :: A) with ⟨extra, he, hd, hn⟩
  refine ⟨extra, ?_, hd, hn⟩
  show (wwwLoop (d :: A).length (d :: A)).drop 1 = A ++ extra
  rw [he]
  rfl

/-- Running the scan on the one-element working list `[d]` appends `www.<d>`
exactly when `d` does not itself start with `www.`. -/
theorem wwwLoop_one (d : String) :
    wwwLoop 1 [d] = if jsStartsWith d "www." then [d] else [d, "www." ++ d] := by
  have hne : ("www." ++ d) ∉ [d] := fun hc => www_ne d (List.mem_singleton.mp hc)
  show wwwStep [d] ([d].getD 0 "") = _
  show wwwStep [d] d = _
  unfold wwwStep
  rcases hs : jsStartsWith d "www." with _ | _
  · simp [hs, hne, www_ne d]
  · simp [hs]

/-! ### Claims about the domain-set composer -/

/-- C1 as stated fails: when the primary domain itself occurs among the
explicit alternates, it survives into the output, because the code only
removes the first element of the working list. -/
theorem primary_in_output_cex :
    "example.org" ∈ computeAlternateDomains "example.org" ["example.org"] := by
  decide

/-- C1 amended: whenever the primary domain does not occur among the explicit
alternates, the output of `computeAlternateDomains` never contains it. -/
theorem primary_not_in_output (d : String) (A : List String) (h : d ∉ A) :
    d ∉ computeAlternateDomains d A := by
  rcases computeAlternateDomains_decomp d A with ⟨extra, he, hd, _⟩
  rw [he]
  intro hc
  rcases List.mem_append.mp hc with hc | hc
  · exact h hc
  · exact hd d hc (List.mem_cons_self d A)

/-- Witness for the amended C1 at `d = example.org`, `A = [example.com]`. -/
theorem primary_not_in_output_witness :
    "example.org" ∉ (["example.com"] : List String) ∧
      "example.org" ∉ computeAlternateDomains "example.org" ["example.com"] :=
  ⟨by decide, primary_not_in_output "example.org" ["example.com"] (by decide)⟩

/-- C2 as stated fails: the scan runs from the end of the working list toward
the start, so the derived entry for `example.com` is appended before the one
for `example.org`, not after it. -/
theorem example_order_cex :
    computeAlternateDomains "example.org" ["example.com"] ≠
      ["example.com", "www.example.org", "www.example.com"] := by
  decide

/-- C2 amended: the example call returns the explicit alternate followed by
the derived entries in reverse scan order, `www.example.com` first. -/
theorem example_order :
    computeAlternateDomains "example.org" ["example.com"] =
      ["example.com", "www.example.com", "www.example.org"] := by
  decide

/-- C3 as stated fails: a duplicate among the explicit alternates survives
into the output, so an entry present before the scan began occurs twice. -/
theorem nodup_cex :
    ¬ (computeAlternateDomains "example.org" ["a.com", "a.com"]).Nodup := by
  decide

/-- C3 amended: whenever the explicit alternates themselves hold no
duplicates, the output of `computeAlternateDomains` holds no duplicates; in
particular a `www.` variant already provided is never derived again. -/
theorem output_nodup (d : String) (A : List String) (h : A.Nodup) :
    (computeAlternateDomains d A).Nodup := by
  rcases computeAlternateDomains_decomp d A with ⟨extra, he, hd, hn⟩
  rw [he, List.nodup_append]
  refine ⟨h, hn, ?_⟩
  intro a ha hc
  exact hd a hc (List.mem_cons_of_mem d ha)

/-- Witness for the amended C3 with the alternates already holding the
`www.` variant of the primary domain. -/
theorem output_nodup_witness :
    (["www.example.org"] : List String).Nodup ∧
      (computeAlternateDomains "example.org" ["www.example.org"]).Nodup :=
  ⟨by decide, output_nodup "example.org" ["www.example.org"] (by decide)⟩

/-- C4: with no explicit alternates the composer returns exactly the `www.`
variant of the primary domain, except that a primary domain already starting
with `www.` yields the empty list. -/
theorem empty_alternates (d : String) :
    computeAlternateDomains d [] =
      if jsStartsWith d "www." then [] else ["www." ++ d] := by
  show (wwwLoop 1 [d]).drop 1 = _
  rw [wwwLoop_one]
  rcases hs : jsStartsWith d "www." with _ | _ <;> simp [hs]

/-- C10 as stated fails: with a nonempty alternates list the older stack's
subject-alternative-names construction puts `www.<primary>` first and derives
no `www.` variants of the alternates, while `withWwwDomains` does the
opposite. -/
theorem old_new_san_cex :
    subjectAlternativeNamesOld "example.org" (some ["example.com"]) ≠
      withWwwDomains "example.org" (some ["example.com"]) := by
  decide

/-- C10 amended: the two constructions agree for a website with no
alternative domain names whose primary domain does not start with `www.`:
both produce exactly the `www.` variant of the primary domain. -/
theorem old_new_san_agree (d : String) (h : jsStartsWith d "www." = false) :
    subjectAlternativeNamesOld d none = withWwwDomains d none := by
  show ("www." ++ d) :: [] = (wwwLoop 1 [d]).drop 1
  rw [wwwLoop_one, h]
  simp

/-- Witness for the amended C10 at `d = example.org`. -/
theorem old_new_san_agree_witness :
    jsStartsWith "example.org" "www." = false ∧
      subjectAlternativeNamesOld "example.org" none =
        withWwwDomains "example.org" none :=
  ⟨by decide, old_new_san_agree "example.org" (by decide)⟩

end Hosting
